import Mathlib

/-!
Verification of the in-memory TODO task store and its HTTP handler.

The Go source consists of `internal/task/model.go` (the task record, the
`Sort`/`Filter` utilities and the `inMemory` store) and
`internal/task/handler.go` (the `RestAPI` dispatcher with its `filters` and
`sorters` preset tables and the `readAll` list handler).  Every definition
below is a direct translation of one of those functions.

Modelling conventions:
* Go machine integers (`int`, `int64`) are modelled as `Int`; the programs
  proved about never reach overflow, and only comparisons and `+1` are used.
* A Go slice `[]*Task` is modelled as the list of the pointed-to task values
  together with a boolean recording whether the slice is the `nil` slice
  (Go's `encoding/json` renders a nil slice as `null` and a non-nil empty
  slice as `[]`, so nil-ness is observable in responses).
* Go's `sort.Sort` is not part of this repository; its behaviour for ranges
  of at most 12 elements is the standard library's insertion sort
  (`insertionSort(data, a, b)` with the non-strict `Less` supplied here),
  which is what `sortAux`/`sortInsertRev` implement.  Every theorem below
  that depends on the order of a sorted result stays inside that regime.
-/

namespace Todo

/-- Task enumerates task properties (`Task` in model.go).  `Priority` is a Go
`byte`; only `≤` comparisons are performed on it, so it is modelled as `Nat`. -/
structure Task where
  ID : Int
  Title : String
  Date : Int
  Note : String
  Priority : Nat
  Done : Bool
deriving DecidableEq

/-- StoreError models the three sentinel errors of model.go:
`ErrCreateEmptyTitle`, `ErrUpdateUnknown`, `ErrDeleteUnknown`. -/
inductive StoreError where
  | errCreateEmptyTitle
  | errUpdateUnknown
  | errDeleteUnknown
deriving DecidableEq

/-- Sort is the type of a `Sort.Less` function (`type Sort func(t1, t2 *Task) bool`).
`Sort` is a Lean keyword, hence the prime. -/
def Sort' : Type := Task → Task → Bool

/-- One step of the inner loop of Go's library insertion sort: `x` is the
element being inserted, the list is the already-sorted prefix in reverse
order; `x` keeps swapping left while `Less(j, j-1)`, i.e. while `le x y`
holds against the element `y` on its left. -/
def sortInsertRev (le : Sort') (x : Task) : List Task → List Task
  | [] => [x]
  | y :: ys => if le x y then y :: sortInsertRev le x ys else x :: y :: ys

/-- The outer loop of Go's library insertion sort: fold over the input,
keeping the sorted prefix reversed in `acc`. -/
def sortAux (le : Sort') : List Task → List Task → List Task
  | acc, [] => acc.reverse
  | acc, x :: xs => sortAux le (sortInsertRev le x acc) xs

/-- Tasks sorts the argument slice according to the Sort function
(`Sort.Tasks` in model.go, which calls `sort.Sort`; see the module comment
for the insertion-sort modelling of `sort.Sort`).  The Go function sorts in
place; the model returns the sorted list and call sites thread the state. -/
def Sort'.Tasks (le : Sort') (tasks : List Task) : List Task :=
  sortAux le [] tasks

/-- Filter is a predicate on a single task (`type Filter func(t *Task) bool`). -/
def Filter : Type := Task → Bool

/-- Tasks filters the argument slice according to the Filter function
(`Filter.Tasks` in model.go): the loop appends exactly the elements
satisfying `f`, in order, to a fresh slice. -/
def Filter.Tasks (f : Filter) : List Task → List Task
  | [] => []
  | t :: ts => if f t then t :: Filter.Tasks f ts else Filter.Tasks f ts

/-- inMemory is the store (`type inMemory struct { tasks []*Task; nextID int }`).
`tasksNil` records whether the `tasks` slice is the nil slice (see module
comment); the zero value of the struct has a nil slice. -/
structure inMemory where
  tasks : List Task
  tasksNil : Bool
  nextID : Int
deriving DecidableEq

/-- NewManager returns a new empty Manager (`&inMemory{}`: zero value, nil
slice, counter 0). -/
def NewManager : inMemory :=
  { tasks := [], tasksNil := true, nextID := 0 }

/-- Create stores and returns a new task with the given title
(`inMemory.Create`): an empty title is rejected with `ErrCreateEmptyTitle`
and nothing changes; otherwise a task with the current `nextID` and
zero-valued remaining fields is appended and the counter advances. -/
def inMemory.Create (m : inMemory) (title : String) :
    Except StoreError Task × inMemory :=
  if title = "" then
    (.error .errCreateEmptyTitle, m)
  else
    let t : Task :=
      { ID := m.nextID, Title := title, Date := 0, Note := "", Priority := 0, Done := false }
    (.ok t, { tasks := m.tasks ++ [t], tasksNil := false, nextID := m.nextID + 1 })

/-- Find returns the task with the given id (`inMemory.Find`): a linear scan
returning the first task whose `ID` matches, or none. -/
def inMemory.Find (m : inMemory) (id : Int) : Option Task :=
  m.tasks.find? (fun t => t.ID == id)

/-- All returns all stored tasks (`inMemory.All`); in Go this hands out the
backing slice itself, which `readAll` then mutates in place when sorting. -/
def inMemory.All (m : inMemory) : List Task :=
  m.tasks

/-- The loop body of `inMemory.Update`: replace the first task whose `ID`
matches `task.ID` with (a copy of) `task`; `none` when no task matches. -/
def updateGo (task : Task) : List Task → Option (List Task)
  | [] => none
  | t :: ts =>
      if t.ID = task.ID then some (task :: ts)
      else (updateGo task ts).map (t :: ·)

/-- Update updates the given task (`inMemory.Update`): the first stored task
with the same `ID` is replaced wholesale, else `ErrUpdateUnknown`. -/
def inMemory.Update (m : inMemory) (task : Task) :
    Except StoreError Unit × inMemory :=
  match updateGo task m.tasks with
  | some ts => (.ok (), { m with tasks := ts })
  | none => (.error .errUpdateUnknown, m)

/-- The loop body of `inMemory.Delete`: remove the first task whose `ID`
matches, keeping the order of the rest
(`append(m.tasks[:i], m.tasks[i+1:]...)`); `none` when no task matches. -/
def deleteGo (id : Int) : List Task → Option (List Task)
  | [] => none
  | t :: ts =>
      if t.ID = id then some ts
      else (deleteGo id ts).map (t :: ·)

/-- Delete deletes the task with the given id (`inMemory.Delete`).  On
success the backing slice is the non-nil result of `append` on a non-empty
slice, hence `tasksNil := false`. -/
def inMemory.Delete (m : inMemory) (id : Int) :
    Except StoreError Unit × inMemory :=
  match deleteGo id m.tasks with
  | some ts => (.ok (), { m with tasks := ts, tasksNil := false })
  | none => (.error .errDeleteUnknown, m)

/-- Count returns the number of stored tasks (`inMemory.Count`). -/
def inMemory.Count (m : inMemory) : Nat :=
  m.tasks.length

/-- The `filters` preset table of handler.go; a map lookup that misses (any
other key, including the empty string for an absent query parameter)
returns `none`. -/
def filters (k : String) : Option Filter :=
  if k = "isDone" then some (fun t => t.Done)
  else if k = "isNotDone" then some (fun t => !t.Done)
  else if k = "isScheduled" then some (fun t => t.Date != 0)
  else none

/-- The "dateAsc" comparator of handler.go: `t1.Date <= t2.Date`. -/
def dateAscLe : Sort' := fun t1 t2 => decide (t1.Date ≤ t2.Date)

/-- The "dateDesc" comparator of handler.go: `t1.Date >= t2.Date`. -/
def dateDescLe : Sort' := fun t1 t2 => decide (t1.Date ≥ t2.Date)

/-- The "priorityAsc" comparator of handler.go: `t1.Priority <= t2.Priority`. -/
def priorityAscLe : Sort' := fun t1 t2 => decide (t1.Priority ≤ t2.Priority)

/-- The "priorityDesc" comparator of handler.go: `t1.Priority >= t2.Priority`. -/
def priorityDescLe : Sort' := fun t1 t2 => decide (t1.Priority ≥ t2.Priority)

/-- The `sorters` preset table of handler.go: non-strict comparators on the
date and priority fields. -/
def sorters (k : String) : Option Sort' :=
  if k = "dateAsc" then some dateAscLe
  else if k = "dateDesc" then some dateDescLe
  else if k = "priorityAsc" then some priorityAscLe
  else if k = "priorityDesc" then some priorityDescLe
  else none

/-- The JSON value taken by the `tasks` field of the list-all response:
Go's `encoding/json` marshals a nil `[]*Task` as `null` and a non-nil slice
as an array. -/
inductive TasksFieldJson where
  | null
  | arr (tasks : List Task)
deriving DecidableEq

/-- Marshal a slice (element list plus nil-ness flag) as the `tasks` field. -/
def encodeTasks (l : List Task) (isNil : Bool) : TasksFieldJson :=
  if isNil then .null else .arr l

/-- readAll handles list-all requests (`readAll` in handler.go): start from
the backing slice returned by `All`, apply a recognized filter (a fresh
slice) and then a recognized sorter.  When no filter was applied the sorter
runs on the backing slice itself, mutating the store; the filtered slice is
nil exactly when no element was appended to it. -/
def readAll (m : inMemory) (filterName sortName : String) :
    inMemory × TasksFieldJson :=
  match filters filterName with
  | some f =>
      let r := Filter.Tasks f m.All
      let r' :=
        match sorters sortName with
        | some le => Sort'.Tasks le r
        | none => r
      (m, encodeTasks r' r.isEmpty)
  | none =>
      match sorters sortName with
      | some le =>
          let sorted := Sort'.Tasks le m.All
          ({ m with tasks := sorted }, encodeTasks sorted m.tasksNil)
      | none => (m, encodeTasks m.All m.tasksNil)

/-- Path specifies the task resource path (`const Path = "/task/"`). -/
def Path : String := "/task/"

/-- HTTP methods as dispatched by `RestAPI`'s switch. -/
inductive Method where
  | GET
  | POST
  | PUT
  | DELETE
  | other (name : String)
deriving DecidableEq

/-- An HTTP request as `RestAPI` observes it.  The two JSON bodies arrive
already decoded: `bodyTitle` is the result of decoding the POST body into the
anonymous `{Title string}` struct (`none` = malformed JSON) and `bodyTask`
the result of decoding the PUT body into a `Task` (`none` = malformed JSON);
`filterParam`/`sortByParam` are the `filter`/`sortBy` query values, with ""
standing for an absent parameter exactly as `url.Values.Get` returns it. -/
structure Request where
  method : Method
  path : String
  filterParam : String
  sortByParam : String
  bodyTitle : Option String
  bodyTask : Option Task

/-- Go's `strconv.Atoi` as used by `parseID`: an optional sign followed by at
least one digit; anything else is an error.  (Atoi additionally errors on
values outside the 64-bit range, which no statement below reaches.) -/
def goAtoi (s : String) : Option Int :=
  let core : List Char → Option Nat := fun ds =>
    if ds = [] then none
    else if ds.all (fun c => c.isDigit) then
      some (ds.foldl (fun n c => n * 10 + (c.toNat - 48)) 0)
    else none
  match s.data with
  | '+' :: rest => (core rest).map (fun n => (n : Int))
  | '-' :: rest => (core rest).map (fun n => -(n : Int))
  | ds => (core ds).map (fun n => (n : Int))

/-- RestAPI is the dispatcher of handler.go, returning the mutated store and
the HTTP status code of the response.  A `ResponseWriter` to which no error
was written reports 200; `errRequest` errors carry 400/404; a bare store
error reaching `errorHandler`'s default branch yields 500.  An identifier is
present exactly when the path is longer than `Path`; PUT and DELETE without
one fall through with no handler invoked, leaving the implicit 200. -/
def RestAPI (m : inMemory) (r : Request) : inMemory × Nat :=
  match r.method with
  | .GET =>
      if r.path.length > Path.length then
        match goAtoi (r.path.drop Path.length) with
        | none => (m, 400)
        | some id =>
            match m.Find id with
            | none => (m, 404)
            | some _ => (m, 200)
      else
        ((readAll m r.filterParam r.sortByParam).1, 200)
  | .POST =>
      match r.bodyTitle with
      | none => (m, 400)
      | some title =>
          match m.Create title with
          | (.ok _, m') => (m', 200)
          | (.error _, m') => (m', 400)
  | .PUT =>
      if r.path.length > Path.length then
        match goAtoi (r.path.drop Path.length) with
        | none => (m, 400)
        | some id =>
            match r.bodyTask with
            | none => (m, 400)
            | some t =>
                if t.ID ≠ id then (m, 400)
                else
                  match m.Find id with
                  | none => (m, 404)
                  | some _ =>
                      match m.Update t with
                      | (.ok _, m') => (m', 200)
                      | (.error _, m') => (m', 500)
      else (m, 200)
  | .DELETE =>
      if r.path.length > Path.length then
        match goAtoi (r.path.drop Path.length) with
        | none => (m, 400)
        | some id =>
            match m.Delete id with
            | (.ok _, m') => (m', 200)
            | (.error _, m') => (m', 500)
      else (m, 200)
  | .other _ => (m, 400)

/-- One operation against the shared store: the five `Manager` methods plus a
list-all request (`readAll`) with its two query parameters. -/
inductive Op where
  | create (title : String)
  | find (id : Int)
  | update (t : Task)
  | delete (id : Int)
  | count
  | listAll (filterName sortName : String)

/-- The store after one operation (queries leave it as is; `listAll` goes
through `readAll`, whose unfiltered sort mutates the backing slice). -/
def step (m : inMemory) : Op → inMemory
  | .create s => (m.Create s).2
  | .find _ => m
  | .update t => (m.Update t).2
  | .delete i => (m.Delete i).2
  | .count => m
  | .listAll f s => (readAll m f s).1

/-- The store after a sequence of operations, started from `m`. -/
def runFrom (m : inMemory) : List Op → inMemory
  | [] => m
  | op :: ops => runFrom (step m op) ops

/-- The store a fresh manager reaches after a sequence of operations. -/
def run (ops : List Op) : inMemory :=
  runFrom NewManager ops

/-- The identifiers handed out by the successful creates of an operation
sequence, in order (`Create` assigns the current `nextID` whenever the title
is non-empty). -/
def createdIds : inMemory → List Op → List Int
  | _, [] => []
  | m, op :: ops =>
      (match op with
       | .create s => if s = "" then [] else [m.nextID]
       | _ => []) ++ createdIds (step m op) ops

/-- How many creates of the sequence succeed (title non-empty). -/
def sucCreates : inMemory → List Op → Nat
  | _, [] => 0
  | m, op :: ops =>
      (match op with
       | .create s => if s = "" then 0 else 1
       | _ => 0) + sucCreates (step m op) ops

/-- How many deletes of the sequence succeed (their identifier was present). -/
def sucDeletes : inMemory → List Op → Nat
  | _, [] => 0
  | m, op :: ops =>
      (match op with
       | .delete i => match (m.Delete i).1 with | .ok _ => 1 | .error _ => 0
       | _ => 0) + sucDeletes (step m op) ops

/-- How many create operations the sequence holds, successful or not. -/
def numCreates : List Op → Nat
  | [] => 0
  | .create _ :: ops => numCreates ops + 1
  | _ :: ops => numCreates ops

/-- Whether an operation sorts the store's backing slice in place: exactly a
list-all whose `sortBy` names a preset while `filter` names none. -/
def sortsBacking : Op → Bool
  | .listAll f s => (filters f).isNone && (sorters s).isSome
  | _ => false

/-! ## Helper lemmas about the store loops -/

theorem sortInsertRev_length (le : Sort') (x : Task) (l : List Task) :
    (sortInsertRev le x l).length = l.length + 1 := by
  induction l with
  | nil => rfl
  | cons y ys ih =>
      simp only [sortInsertRev]
      by_cases h : le x y
      · simp [h, ih]
      · simp [h]

theorem sortAux_length (le : Sort') (l : List Task) :
    ∀ acc, (sortAux le acc l).length = acc.length + l.length := by
  induction l with
  | nil => intro acc; simp [sortAux]
  | cons x xs ih =>
      intro acc
      simp only [sortAux]
      rw [ih, sortInsertRev_length]
      simp only [List.length_cons]
      omega

theorem sortTasks_length (le : Sort') (l : List Task) :
    (Sort'.Tasks le l).length = l.length := by
  simp [Sort'.Tasks, sortAux_length]

theorem updateGo_eq_none (task : Task) (l : List Task) :
    updateGo task l = none ↔ ∀ u ∈ l, ¬ u.ID = task.ID := by
  induction l with
  | nil => simp [updateGo]
  | cons t ts ih =>
      simp only [updateGo]
      by_cases h : t.ID = task.ID
      · simp [h]
      · simp [h, Option.map_eq_none', ih]

theorem updateGo_map_ID (task : Task) (l l' : List Task)
    (h : updateGo task l = some l') : l'.map Task.ID = l.map Task.ID := by
  induction l generalizing l' with
  | nil => simp [updateGo] at h
  | cons t ts ih =>
      simp only [updateGo] at h
      by_cases ht : t.ID = task.ID
      · rw [if_pos ht] at h
        cases h
        simp [ht]
      · rw [if_neg ht] at h
        cases hu : updateGo task ts with
        | none => rw [hu] at h; simp at h
        | some ts' =>
            rw [hu] at h
            simp only [Option.map_some', Option.some.injEq] at h
            subst h
            simp [ih ts' hu]

theorem updateGo_find_self (task : Task) (l l' : List Task)
    (h : updateGo task l = some l') :
    l'.find? (fun u => u.ID == task.ID) = some task := by
  induction l generalizing l' with
  | nil => simp [updateGo] at h
  | cons t ts ih =>
      simp only [updateGo] at h
      by_cases ht : t.ID = task.ID
      · rw [if_pos ht] at h
        cases h
        simp [List.find?_cons_of_pos]
      · rw [if_neg ht] at h
        cases hu : updateGo task ts with
        | none => rw [hu] at h; simp at h
        | some ts' =>
            rw [hu] at h
            simp only [Option.map_some', Option.some.injEq] at h
            subst h
            rw [List.find?_cons_of_neg _ (by simp [ht])]
            exact ih ts' hu

theorem updateGo_getElem? (task : Task) (l l' : List Task)
    (h : updateGo task l = some l') (i : Nat) (u : Task)
    (hu : l[i]? = some u) (hne : ¬ u.ID = task.ID) : l'[i]? = some u := by
  induction l generalizing l' i with
  | nil => simp [updateGo] at h
  | cons t ts ih =>
      simp only [updateGo] at h
      by_cases ht : t.ID = task.ID
      · rw [if_pos ht] at h
        cases h
        cases i with
        | zero =>
            simp only [List.getElem?_cons_zero, Option.some.injEq] at hu
            subst hu
            exact absurd ht hne
        | succ n => simpa using hu
      · rw [if_neg ht] at h
        cases hg : updateGo task ts with
        | none => rw [hg] at h; simp at h
        | some ts' =>
            rw [hg] at h
            simp only [Option.map_some', Option.some.injEq] at h
            subst h
            cases i with
            | zero => simpa using hu
            | succ n =>
                simp only [List.getElem?_cons_succ] at hu ⊢
                exact ih ts' hg n hu

theorem updateGo_length (task : Task) (l l' : List Task)
    (h : updateGo task l = some l') : l'.length = l.length := by
  have := congrArg List.length (updateGo_map_ID task l l' h)
  simpa using this

theorem deleteGo_eq_none (id : Int) (l : List Task) :
    deleteGo id l = none ↔ ∀ u ∈ l, ¬ u.ID = id := by
  induction l with
  | nil => simp [deleteGo]
  | cons t ts ih =>
      simp only [deleteGo]
      by_cases h : t.ID = id
      · simp [h]
      · simp [h, Option.map_eq_none', ih]

theorem deleteGo_length (id : Int) (l l' : List Task)
    (h : deleteGo id l = some l') : l.length = l'.length + 1 := by
  induction l generalizing l' with
  | nil => simp [deleteGo] at h
  | cons t ts ih =>
      simp only [deleteGo] at h
      by_cases ht : t.ID = id
      · rw [if_pos ht] at h
        cases h
        rfl
      · rw [if_neg ht] at h
        cases hd : deleteGo id ts with
        | none => rw [hd] at h; simp at h
        | some ts' =>
            rw [hd] at h
            simp only [Option.map_some', Option.some.injEq] at h
            subst h
            simp [ih ts' hd]

theorem deleteGo_sublist (id : Int) (l l' : List Task)
    (h : deleteGo id l = some l') : l'.Sublist l := by
  induction l generalizing l' with
  | nil => simp [deleteGo] at h
  | cons t ts ih =>
      simp only [deleteGo] at h
      by_cases ht : t.ID = id
      · rw [if_pos ht] at h
        cases h
        exact List.sublist_cons_self t ts
      · rw [if_neg ht] at h
        cases hd : deleteGo id ts with
        | none => rw [hd] at h; simp at h
        | some ts' =>
            rw [hd] at h
            simp only [Option.map_some', Option.some.injEq] at h
            subst h
            exact (ih ts' hd).cons₂ t

theorem deleteGo_filter (id : Int) (l l' : List Task)
    (hnd : (l.map Task.ID).Nodup) (h : deleteGo id l = some l') :
    l' = l.filter (fun t => !(t.ID == id)) := by
  induction l generalizing l' with
  | nil => simp [deleteGo] at h
  | cons t ts ih =>
      simp only [List.map_cons, List.nodup_cons] at hnd
      obtain ⟨hid, hnd'⟩ := hnd
      simp only [deleteGo] at h
      by_cases ht : t.ID = id
      · rw [if_pos ht] at h
        cases h
        rw [List.filter_cons_of_neg (by simp [ht])]
        symm
        rw [List.filter_eq_self]
        intro u hu
        simp only [Bool.not_eq_true', beq_eq_false_iff_ne, ne_eq]
        intro hcontra
        exact hid (by rw [ht, ← hcontra]; exact List.mem_map_of_mem Task.ID hu)
      · rw [if_neg ht] at h
        cases hd : deleteGo id ts with
        | none => rw [hd] at h; simp at h
        | some ts' =>
            rw [hd] at h
            simp only [Option.map_some', Option.some.injEq] at h
            subst h
            rw [List.filter_cons_of_pos (by simp [ht])]
            rw [ih ts' hnd' hd]

/-! ## Helper lemmas about operation sequences -/

theorem step_nextID (m : inMemory) (op : Op) :
    (step m op).nextID =
      match op with
      | .create s => if s = "" then m.nextID else m.nextID + 1
      | _ => m.nextID := by
  cases op with
  | create s => by_cases h : s = "" <;> simp [step, inMemory.Create, h]
  | find i => rfl
  | update t =>
      simp only [step, inMemory.Update]
      cases updateGo t m.tasks <;> rfl
  | delete i =>
      simp only [step, inMemory.Delete]
      cases deleteGo i m.tasks <;> rfl
  | count => rfl
  | listAll f s =>
      simp only [step, readAll]
      cases filters f with
      | some p => rfl
      | none => cases sorters s <;> rfl

theorem createdIds_eq (ops : List Op) : ∀ m : inMemory,
    createdIds m ops
      = (List.range (sucCreates m ops)).map (fun k : Nat => m.nextID + (k : Int)) := by
  induction ops with
  | nil => intro m; simp [createdIds, sucCreates]
  | cons op ops ih =>
      intro m
      cases op with
      | create s =>
          by_cases h : s = ""
          · subst h
            have hstep : step m (.create "") = m := by
              simp [step, inMemory.Create]
            have e1 : createdIds m (.create "" :: ops)
                = createdIds (step m (.create "")) ops := by
              simp [createdIds]
            have e2 : sucCreates m (.create "" :: ops)
                = sucCreates (step m (.create "")) ops := by
              simp [sucCreates]
            rw [e1, e2, hstep, ih m]
          · have e1 : createdIds m (.create s :: ops)
                = m.nextID :: createdIds (step m (.create s)) ops := by
              simp [createdIds, h]
            have e2 : sucCreates m (.create s :: ops)
                = 1 + sucCreates (step m (.create s)) ops := by
              simp [sucCreates, h]
            have e3 : (step m (.create s)).nextID = m.nextID + 1 := by
              simp [step, inMemory.Create, h]
            rw [e1, e2, ih (step m (.create s)), e3,
              Nat.add_comm 1 (sucCreates (step m (.create s)) ops),
              List.range_succ_eq_map]
            simp only [List.map_cons, List.map_map]
            congr 1
            · simp
            · apply List.map_congr_left
              intro a _
              simp only [Function.comp_apply, Nat.succ_eq_add_one]
              push_cast
              ring
      | find i =>
          have e1 : createdIds m (.find i :: ops)
              = createdIds (step m (.find i)) ops := by simp [createdIds]
          have e2 : sucCreates m (.find i :: ops)
              = sucCreates (step m (.find i)) ops := by simp [sucCreates]
          rw [e1, e2]
          exact ih m
      | update t =>
          have e1 : createdIds m (.update t :: ops)
              = createdIds (step m (.update t)) ops := by simp [createdIds]
          have e2 : sucCreates m (.update t :: ops)
              = sucCreates (step m (.update t)) ops := by simp [sucCreates]
          have e3 : (step m (.update t)).nextID = m.nextID := by
            simp only [step, inMemory.Update]
            cases updateGo t m.tasks <;> rfl
          rw [e1, e2, ih (step m (.update t)), e3]
      | delete i =>
          have e1 : createdIds m (.delete i :: ops)
              = createdIds (step m (.delete i)) ops := by simp [createdIds]
          have e2 : sucCreates m (.delete i :: ops)
              = sucCreates (step m (.delete i)) ops := by simp [sucCreates]
          have e3 : (step m (.delete i)).nextID = m.nextID := by
            simp only [step, inMemory.Delete]
            cases deleteGo i m.tasks <;> rfl
          rw [e1, e2, ih (step m (.delete i)), e3]
      | count =>
          have e1 : createdIds m (.count :: ops)
              = createdIds (step m .count) ops := by simp [createdIds]
          have e2 : sucCreates m (.count :: ops)
              = sucCreates (step m .count) ops := by simp [sucCreates]
          rw [e1, e2]
          exact ih m
      | listAll f s =>
          have e1 : createdIds m (.listAll f s :: ops)
              = createdIds (step m (.listAll f s)) ops := by simp [createdIds]
          have e2 : sucCreates m (.listAll f s :: ops)
              = sucCreates (step m (.listAll f s)) ops := by simp [sucCreates]
          have e3 : (step m (.listAll f s)).nextID = m.nextID := by
            simp only [step, readAll]
            cases filters f with
            | some p => rfl
            | none => cases sorters s <;> rfl
          rw [e1, e2, ih (step m (.listAll f s)), e3]

theorem step_count (m : inMemory) (op : Op) :
    (step m op).Count +
      (match op with
       | .delete i => match (m.Delete i).1 with | .ok _ => 1 | .error _ => 0
       | _ => 0)
    = m.Count +
      (match op with
       | .create s => if s = "" then 0 else 1
       | _ => 0) := by
  cases op with
  | create s =>
      by_cases h : s = "" <;>
        simp [step, inMemory.Create, inMemory.Count, h]
  | find i => rfl
  | update t =>
      simp only [step, inMemory.Update, inMemory.Count]
      cases hu : updateGo t m.tasks with
      | none => rfl
      | some ts => simpa using updateGo_length t m.tasks ts hu
  | delete i =>
      simp only [step, inMemory.Delete, inMemory.Count]
      cases hd : deleteGo i m.tasks with
      | none => rfl
      | some ts => simpa using (deleteGo_length i m.tasks ts hd).symm
  | count => rfl
  | listAll f s =>
      simp only [step, readAll, inMemory.Count]
      cases filters f with
      | some p => rfl
      | none =>
          cases sorters s with
          | none => rfl
          | some le => simpa using sortTasks_length le m.tasks

theorem count_runFrom (ops : List Op) : ∀ m : inMemory,
    (runFrom m ops).Count + sucDeletes m ops = m.Count + sucCreates m ops := by
  induction ops with
  | nil => intro m; simp [runFrom, sucDeletes, sucCreates]
  | cons op ops ih =>
      intro m
      have h1 := ih (step m op)
      have h2 := step_count m op
      simp only [runFrom, sucDeletes, sucCreates]
      omega

/-- The order invariant of the backing slice: identifiers appear in strictly
increasing order (tasks are created with strictly increasing identifiers, so
this is creation order) and every stored identifier is below the counter. -/
def ordered (m : inMemory) : Prop :=
  List.Pairwise (fun a b : Task => a.ID < b.ID) m.tasks ∧
    ∀ t ∈ m.tasks, t.ID < m.nextID

theorem ordered_step (m : inMemory) (op : Op) (hm : ordered m)
    (hop : sortsBacking op = false) : ordered (step m op) := by
  obtain ⟨h1, h2⟩ := hm
  cases op with
  | create s =>
      by_cases hs : s = ""
      · simpa [step, inMemory.Create, hs] using ⟨h1, h2⟩
      · constructor
        · simp only [step, inMemory.Create, hs, if_neg, not_false_iff]
          rw [List.pairwise_append]
          refine ⟨h1, by simp, ?_⟩
          intro a ha b hb
          simp only [List.mem_singleton] at hb
          subst hb
          exact h2 a ha
        · intro t ht
          simp only [step, inMemory.Create, hs, if_neg, not_false_iff,
            List.mem_append, List.mem_singleton] at ht ⊢
          rcases ht with ht | ht
          · have := h2 t ht
            omega
          · subst ht
            simp
  | find i => exact ⟨h1, h2⟩
  | count => exact ⟨h1, h2⟩
  | update t =>
      simp only [step, inMemory.Update]
      cases hu : updateGo t m.tasks with
      | none => exact ⟨h1, h2⟩
      | some ts =>
          have hmap := updateGo_map_ID t m.tasks ts hu
          constructor
          · have hp : List.Pairwise (fun a b : Int => a < b) (m.tasks.map Task.ID) :=
              List.pairwise_map.2 h1
            rw [← hmap] at hp
            exact List.pairwise_map.1 hp
          · intro u hu'
            have hmem : u.ID ∈ ts.map Task.ID := List.mem_map_of_mem Task.ID hu'
            rw [hmap] at hmem
            obtain ⟨v, hv, hvid⟩ := List.mem_map.1 hmem
            rw [← hvid]
            exact h2 v hv
  | delete i =>
      simp only [step, inMemory.Delete]
      cases hd : deleteGo i m.tasks with
      | none => exact ⟨h1, h2⟩
      | some ts =>
          have hsub := deleteGo_sublist i m.tasks ts hd
          exact ⟨h1.sublist hsub, fun t ht => h2 t (hsub.subset ht)⟩
  | listAll f s =>
      simp only [sortsBacking] at hop
      simp only [step, readAll]
      cases hf : filters f with
      | some p => exact ⟨h1, h2⟩
      | none =>
          cases hs : sorters s with
          | none => exact ⟨h1, h2⟩
          | some le =>
              rw [hf, hs] at hop
              simp at hop

theorem ordered_runFrom (ops : List Op) : ∀ m : inMemory, ordered m →
    (∀ op ∈ ops, sortsBacking op = false) → ordered (runFrom m ops) := by
  induction ops with
  | nil => intro m hm _; exact hm
  | cons op ops ih =>
      intro m hm hops
      exact ih (step m op)
        (ordered_step m op hm (hops op (List.mem_cons_self op ops)))
        (fun o ho => hops o (List.mem_cons_of_mem op ho))

/-! ## The claims -/

/-- Two distinct tasks with equal dates, as they occur after two creates and
an update; used by the sorting counterexample. -/
def cexTaskA : Task :=
  { ID := 0, Title := "a", Date := 5, Note := "", Priority := 0, Done := false }

/-- See `cexTaskA`. -/
def cexTaskB : Task :=
  { ID := 1, Title := "b", Date := 5, Note := "", Priority := 0, Done := false }

/-- Claim C1 is false on the code: the "dateAsc" preset comparator applied by
`Sort.Tasks` (Go's unstable `sort.Sort`, insertion sort at this length) to
two distinct tasks with equal dates returns them in reversed relative
order, so sorting is not stable. -/
theorem sort_not_stable_counterexample :
    cexTaskA.Date = cexTaskB.Date ∧ cexTaskA ≠ cexTaskB ∧
    sorters "dateAsc" = some dateAscLe ∧
    Sort'.Tasks dateAscLe [cexTaskA, cexTaskB] = [cexTaskB, cexTaskA] :=
  ⟨rfl, by decide, rfl, by decide⟩

/-- Claim C1 (amended): sorting with the presets is not stable but
anti-stable on ties: for every preset comparator (all of which are
non-strict, so two tasks with equal sort keys satisfy it in both
directions), sorting a two-task sequence whose tasks tie under the
comparator returns the two tasks in reversed relative order. -/
theorem sort_reverses_tied_pair (name : String) (le : Sort') (t1 t2 : Task)
    (_hname : sorters name = some le)
    (_h12 : le t1 t2 = true) (h21 : le t2 t1 = true) :
    Sort'.Tasks le [t1, t2] = [t2, t1] := by
  simp [Sort'.Tasks, sortAux, sortInsertRev, h21]

/-- Witness for `sort_reverses_tied_pair` at the "dateDesc" preset and the
two concrete equal-date tasks. -/
theorem sort_reverses_tied_pair_witness :
    Sort'.Tasks dateDescLe [cexTaskA, cexTaskB] = [cexTaskB, cexTaskA] :=
  sort_reverses_tied_pair "dateDesc" dateDescLe cexTaskA cexTaskB rfl
    (by decide) (by decide)

/-- Claim C2 is false on the code: after two creates (identifiers 0 then 1)
and one list-all with the "dateAsc" sort preset and no filter, a subsequent
list-all with no sort returns the tasks as [id 1, id 0], not in creation
order — the unfiltered sort permuted the store's backing slice in place. -/
theorem insertion_order_not_invariant_counterexample :
    createdIds NewManager [.create "a", .create "b", .listAll "" "dateAsc"]
      = [0, 1] ∧
    (run [.create "a", .create "b", .listAll "" "dateAsc"]).tasks.map Task.ID
      = [1, 0] ∧
    (readAll (run [.create "a", .create "b", .listAll "" "dateAsc"]) "" "").2
      = TasksFieldJson.arr
          [{ ID := 1, Title := "b", Date := 0, Note := "", Priority := 0, Done := false },
           { ID := 0, Title := "a", Date := 0, Note := "", Priority := 0, Done := false }] := by
  decide

/-- Claim C2 (amended): insertion order is an invariant of the backing
sequence for every operation sequence that avoids list-alls applying a
recognized sort preset without a recognized filter (those sort the backing
slice in place); under that restriction the remaining tasks always carry
strictly increasing identifiers, i.e. they stand in creation order, which is
what an unsorted list-all returns. -/
theorem insertion_order_preserved_without_backing_sort (ops : List Op)
    (h : ∀ op ∈ ops, sortsBacking op = false) :
    List.Pairwise (fun a b : Task => a.ID < b.ID) (run ops).tasks :=
  (ordered_runFrom ops NewManager
    ⟨List.Pairwise.nil, by intro t ht; simp [NewManager] at ht⟩ h).1

/-- Witness for `insertion_order_preserved_without_backing_sort` on a
concrete sequence with creates, a delete and a filtered sorted list-all. -/
theorem insertion_order_preserved_witness :
    List.Pairwise (fun a b : Task => a.ID < b.ID)
      (run [.create "a", .create "b", .listAll "isDone" "dateAsc",
            .delete 0, .create "c"]).tasks :=
  insertion_order_preserved_without_backing_sort
    [.create "a", .create "b", .listAll "isDone" "dateAsc",
     .delete 0, .create "c"] (by decide)

/-- Claim C3: over every operation sequence on a fresh store, the
identifiers assigned by successful creates are exactly 0, 1, 2, … in order
(so each is strictly greater than all earlier ones, the first is 0, and none
is ever assigned twice, deletions notwithstanding). -/
theorem created_ids_strictly_increasing (ops : List Op) :
    createdIds NewManager ops
      = (List.range (sucCreates NewManager ops)).map (fun k : Nat => (k : Int)) ∧
    List.Pairwise (fun a b : Int => a < b) (createdIds NewManager ops) := by
  have h := createdIds_eq ops NewManager
  have h0 : NewManager.nextID = (0 : Int) := rfl
  rw [h0] at h
  simp only [zero_add] at h
  refine ⟨h, ?_⟩
  rw [h, List.pairwise_map]
  exact (List.pairwise_lt_range _).imp fun hab => by exact_mod_cast hab

/-- Claim C4 is false on the code: a single create with the empty title is a
create operation, yet it fails and stores nothing, so `count()` (0) differs
from the number of creates minus the number of successful deletes (1). -/
theorem count_counterexample_empty_title_create :
    ¬ ((run [.create ""]).Count
        = numCreates [.create ""] - sucDeletes NewManager [.create ""]) := by
  decide

/-- Claim C4 (amended): for every sequence of operations on a fresh store,
`count()` equals the number of successful creates (those with a non-empty
title) minus the number of successful deletes; stated addition-style to
avoid truncated subtraction. -/
theorem count_plus_deletes_eq_successful_creates (ops : List Op) :
    (run ops).Count + sucDeletes NewManager ops = sucCreates NewManager ops := by
  have h := count_runFrom ops NewManager
  simpa [run, NewManager, inMemory.Count] using h

/-- Claim C5: for every store state and task value `t`, `Update` on an
identifier not present fails with the unknown-task error and leaves the
store (slice, nil-flag and counter) completely unchanged, while `Update` on
a present identifier succeeds and the stored record found under that
identifier afterwards equals `t` in every field. -/
theorem update_unknown_or_replaces (m : inMemory) (t : Task) :
    (m.Find t.ID = none → m.Update t = (.error .errUpdateUnknown, m)) ∧
    ((m.Find t.ID).isSome →
      (m.Update t).1 = .ok () ∧ ((m.Update t).2).Find t.ID = some t) := by
  constructor
  · intro h
    have hall : ∀ u ∈ m.tasks, ¬ u.ID = t.ID := by
      rw [inMemory.Find, List.find?_eq_none] at h
      intro u hu
      simpa using h u hu
    rw [inMemory.Update, (updateGo_eq_none t m.tasks).2 hall]
  · intro h
    cases hu : updateGo t m.tasks with
    | none =>
        exfalso
        rw [inMemory.Find] at h
        obtain ⟨u, hmem, hp⟩ := List.find?_isSome.1 h
        rw [updateGo_eq_none] at hu
        exact hu u hmem (by simpa using hp)
    | some ts =>
        refine ⟨?_, ?_⟩
        · simp [inMemory.Update, hu]
        · simp only [inMemory.Update, hu, inMemory.Find]
          exact updateGo_find_self t m.tasks ts hu

/-- Claim C6: on a store whose identifiers are pairwise distinct (an
invariant of every reachable store), `Delete id` with `id` present succeeds,
removes exactly the record with identifier `id` while preserving the
relative order of the remaining records, and afterwards `Find id` is
not-found and a second `Delete id` fails with the unknown-task error leaving
the store unchanged; `Delete id` with `id` absent fails with the
unknown-task error and changes nothing. -/
theorem delete_removes_exactly (m : inMemory) (id : Int)
    (hnd : (m.tasks.map Task.ID).Nodup) :
    ((m.Find id).isSome →
      (m.Delete id).1 = .ok () ∧
      ((m.Delete id).2).tasks = m.tasks.filter (fun t => !(t.ID == id)) ∧
      ((m.Delete id).2).Find id = none ∧
      ((m.Delete id).2).Delete id = (.error .errDeleteUnknown, (m.Delete id).2)) ∧
    (m.Find id = none → m.Delete id = (.error .errDeleteUnknown, m)) := by
  constructor
  · intro h
    cases hd : deleteGo id m.tasks with
    | none =>
        exfalso
        rw [inMemory.Find] at h
        obtain ⟨u, hmem, hp⟩ := List.find?_isSome.1 h
        rw [deleteGo_eq_none] at hd
        exact hd u hmem (by simpa using hp)
    | some ts =>
        have hfil := deleteGo_filter id m.tasks ts hnd hd
        have hnone : ∀ u ∈ ts, ¬ u.ID = id := by
          intro u hu
          rw [hfil] at hu
          have := List.of_mem_filter hu
          simpa using this
        refine ⟨by simp [inMemory.Delete, hd], by simp [inMemory.Delete, hd, hfil], ?_, ?_⟩
        · simp only [inMemory.Delete, hd, inMemory.Find]
          rw [List.find?_eq_none]
          intro u hu
          simpa using hnone u hu
        · simp only [inMemory.Delete, hd]
          rw [show deleteGo id ts = none from (deleteGo_eq_none id ts).2 hnone]
  · intro h
    have hall : ∀ u ∈ m.tasks, ¬ u.ID = id := by
      rw [inMemory.Find, List.find?_eq_none] at h
      intro u hu
      simpa using h u hu
    rw [inMemory.Delete, (deleteGo_eq_none id m.tasks).2 hall]

/-- A two-task store with distinct identifiers, used as concrete input by
the delete and update witnesses. -/
def storeW : inMemory :=
  { tasks :=
      [{ ID := 0, Title := "a", Date := 0, Note := "", Priority := 0, Done := false },
       { ID := 1, Title := "b", Date := 0, Note := "", Priority := 0, Done := false }],
    tasksNil := false, nextID := 2 }

/-- Witness for `delete_removes_exactly` on the concrete two-task store. -/
theorem delete_removes_exactly_witness :
    (storeW.Delete 0).1 = .ok () ∧
    ((storeW.Delete 0).2).tasks
      = [{ ID := 1, Title := "b", Date := 0, Note := "", Priority := 0, Done := false }] ∧
    ((storeW.Delete 0).2).Find 0 = none :=
  ⟨((delete_removes_exactly storeW 0 (by decide)).1 (by decide)).1,
   by
     rw [((delete_removes_exactly storeW 0 (by decide)).1 (by decide)).2.1]
     decide,
   ((delete_removes_exactly storeW 0 (by decide)).1 (by decide)).2.2.1⟩

/-- Claim C7: on every store state, `Create` with the exact empty string
fails with the empty-title error and mutates nothing (slice, nil-flag and
counter unchanged); any other title — including a whitespace-only one —
succeeds and returns the fresh task. -/
theorem create_rejects_exactly_empty_title (m : inMemory) (title : String) :
    if title = "" then m.Create title = (.error .errCreateEmptyTitle, m)
    else (m.Create title).1
      = .ok { ID := m.nextID, Title := title, Date := 0, Note := "",
              Priority := 0, Done := false } := by
  by_cases h : title = "" <;> simp [inMemory.Create, h]

/-- Claim C8: a PUT request whose path is exactly "/task/" (no identifier)
dispatches to no handler: the response carries the implicit success status
200 and the store is returned unchanged, whatever the query parameters and
bodies hold. -/
theorem put_without_id_is_noop_success (m : inMemory) (f s : String)
    (bt : Option String) (btk : Option Task) :
    RestAPI m { method := .PUT, path := "/task/", filterParam := f,
                sortByParam := s, bodyTitle := bt, bodyTask := btk }
      = (m, 200) := rfl

/-- Claim C9: every successful `Update t` preserves the positions of all
records — the sequence of stored identifiers is identical before and after —
and every stored record at a position whose identifier differs from `t.ID`
is unchanged in every field. -/
theorem update_preserves_positions (m : inMemory) (t : Task)
    (h : (m.Update t).1 = .ok ()) :
    ((m.Update t).2).tasks.map Task.ID = m.tasks.map Task.ID ∧
    ∀ (i : Nat) (u : Task), m.tasks[i]? = some u → ¬ u.ID = t.ID →
      ((m.Update t).2).tasks[i]? = some u := by
  cases hu : updateGo t m.tasks with
  | none => simp [inMemory.Update, hu] at h
  | some ts =>
      simp only [inMemory.Update, hu]
      exact ⟨updateGo_map_ID t m.tasks ts hu,
        fun i u hi hne => updateGo_getElem? t m.tasks ts hu i u hi hne⟩

/-- The updated value used by the update witness: same identifier as the
first task of `storeW`, every other field changed. -/
def taskW : Task :=
  { ID := 0, Title := "new", Date := 9, Note := "n", Priority := 3, Done := true }

/-- Witness for `update_preserves_positions` on the concrete two-task store:
the identifier sequence is untouched and the other record survives as is. -/
theorem update_preserves_positions_witness :
    ((storeW.Update taskW).2).tasks.map Task.ID = storeW.tasks.map Task.ID ∧
    ((storeW.Update taskW).2).tasks[1]?
      = some { ID := 1, Title := "b", Date := 0, Note := "", Priority := 0, Done := false } :=
  ⟨(update_preserves_positions storeW taskW (by rfl)).1,
   (update_preserves_positions storeW taskW (by rfl)).2 1
     { ID := 1, Title := "b", Date := 0, Note := "", Priority := 0, Done := false }
     (by decide) (by decide)⟩

/-- Claim C10 is false on the code: after a create and a delete the store
holds no tasks, yet an unfiltered unsorted list-all marshals the `tasks`
field as the empty array, not as JSON null — the backing slice emptied by
`Delete` is a non-nil empty slice. -/
theorem empty_store_not_null_counterexample :
    (run [.create "a", .delete 0]).Count = 0 ∧
    (readAll (run [.create "a", .delete 0]) "" "").2 = TasksFieldJson.arr [] ∧
    TasksFieldJson.arr [] ≠ TasksFieldJson.null := by
  decide

/-- Claim C10 (amended): the `tasks` field of a list-all response is JSON
null whenever the marshalled slice is nil, which happens in exactly two
situations: the store's backing slice is still nil (no create has ever
succeeded, as in a fresh store) and no recognized filter replaces it, or a
recognized filter eliminates every task (the filtered slice stays nil).  A
store emptied by deletes, by contrast, has a non-nil empty backing slice and
marshals as the empty array (see the counterexample). -/
theorem readAll_null_cases :
    (∀ (m : inMemory) (f s : String), m.tasksNil = true → m.tasks = [] →
      (readAll m f s).2 = .null) ∧
    (∀ (m : inMemory) (f s : String) (p : Filter), filters f = some p →
      Filter.Tasks p m.tasks = [] → (readAll m f s).2 = .null) := by
  constructor
  · intro m f s hnil hempty
    simp only [readAll]
    cases hf : filters f with
    | some p =>
        simp [inMemory.All, hempty, Filter.Tasks, encodeTasks]
    | none =>
        cases hs : sorters s with
        | some le =>
            simp [inMemory.All, hempty, encodeTasks, hnil, Sort'.Tasks, sortAux]
        | none =>
            simp [inMemory.All, encodeTasks, hnil]
  · intro m f s p hf hempty
    simp only [readAll, hf, inMemory.All]
    cases hs : sorters s with
    | some le => simp [hempty, encodeTasks]
    | none => simp [hempty, encodeTasks]

end Todo
